import Mathlib

/-!
Verification of the repository's two ancillary scripts against their
specification: the monorepo package-publishing script
(scripts/publish-packages.js) and the API code-generation scripts
(toolkit/scripts/generate-api-types.js, toolkit/scripts/generate-api.js).

Strings are modelled as lists of characters (`Str`), so that the
character-level scanning done by the JavaScript string/regex operations can
be mirrored one step at a time. Recursive scanners are written with an
explicit fuel argument equal to the input length, which keeps every
definition structurally recursive and kernel-evaluable.
-/

/-- Script strings are modelled as lists of characters. -/
abbrev Str : Type := List Char

/-- Embed a Lean string literal as a character list. -/
def str (s : String) : Str := s.data

/-- The single-quote character, written via its code point so that no
quote appears inside a literal. -/
def qc : Char := Char.ofNat 39

/-- Boolean prefix test on character lists, mirroring how a JavaScript
literal pattern is compared against the head of a string. -/
def strStartsWith : Str → Str → Bool
  | [], _ => true
  | _ :: _, [] => false
  | a :: as, b :: bs => a == b && strStartsWith as bs

/-- Boolean suffix test: the reversed pattern begins the reversed string. -/
def strEndsWith (pat s : Str) : Bool := strStartsWith pat.reverse s.reverse

/-- Boolean substring test, mirroring JavaScript `String.prototype.includes`. -/
def strContains (s needle : Str) : Bool :=
  (List.range (s.length + 1)).any fun i => strStartsWith needle (s.drop i)

/-- Numeric value of a digit string (most significant digit first), as
accumulated by JavaScript `parseInt` over decimal digits. -/
def strToNat (s : Str) : Nat := s.foldl (fun a c => a * 10 + (c.toNat - 48)) 0

/-- Little-endian decimal digits of a positive number; the fuel argument is
always called with at least the number itself, which bounds the division
chain. -/
def toDigitsRev : Nat → Nat → List Nat
  | 0, _ => []
  | fuel + 1, n => if n = 0 then [] else (n % 10) :: toDigitsRev fuel (n / 10)

/-- Decimal rendering of a natural number, as produced by JavaScript
template-string interpolation of a number. -/
def natToStr (n : Nat) : Str :=
  if n = 0 then ['0'] else ((toDigitsRev n n).map fun d => Char.ofNat (48 + d)).reverse

/-- Rendering of a JavaScript number that may be NaN (`none`). -/
def renderNum : Option Nat → Str
  | some n => natToStr n
  | none => str "NaN"

/-- Model of JavaScript `parseInt` restricted to the non-negative,
unsigned, no-whitespace inputs produced by splitting version strings: the
value of the longest leading digit run, NaN (`none`) when there is none. -/
def jsParseIntNat (s : Str) : Option Nat :=
  let ds := s.takeWhile Char.isDigit
  if ds = [] then none else some (strToNat ds)

/-- JavaScript `parseInt(parts[i])`: indexing out of range gives
`undefined`, and `parseInt(undefined)` is NaN (`none`). -/
def jsParseIntAt (l : List Str) (i : Nat) : Option Nat :=
  match l.get? i with
  | some s => jsParseIntNat s
  | none => none

/-- JavaScript `String.prototype.split` with a single-character
separator. -/
def splitOnChar (sep : Char) : Str → List Str
  | [] => [[]]
  | c :: rest =>
    match splitOnChar sep rest with
    | [] => [[c]]
    | g :: gs => if c = sep then [] :: g :: gs else (c :: g) :: gs

/-! ## publish-packages.js: data and version arithmetic -/

/-- Name of the internal config package, from the `packages` table. -/
def configName : Str := str "@fecommunity/reactpress-config"

/-- Name of the internal server package, from the `packages` table. -/
def serverName : Str := str "@fecommunity/reactpress-server"

/-- Name of the internal client package, from the `packages` table. -/
def clientName : Str := str "@fecommunity/reactpress-client"

/-- Model of `packages.find(p => p.name === depName)`: it succeeds exactly for the three
internal package names. -/
def isInternalPackage (n : Str) : Bool :=
  n = configName || n = serverName || n = clientName

/-- The relevant fields of a parsed package.json object: the version, the
three dependency tables (as ordered name/range association lists), and the
remaining fields, kept opaque. -/
structure Manifest where
  version : Str
  dependencies : List (Str × Str)
  devDependencies : List (Str × Str)
  peerDependencies : List (Str × Str)
  otherFields : List (Str × Str)
deriving DecidableEq

/-- Result of a fallible JavaScript computation: a value, or a thrown
error message. -/
inductive JsResult where
  | ok (v : Str)
  | err (msg : Str)
deriving DecidableEq

/-- Model of `getCurrentVersion` (publish-packages.js:29-37): read and parse
package.json inside try/catch; any read failure (`none` read result) or
parse failure (`none` parse result) yields the string `unknown`, otherwise
the manifest's version field is returned. -/
def getCurrentVersion (readResult : Option Str) (parseJson : Str → Option Manifest) : Str :=
  match readResult with
  | none => str "unknown"
  | some content =>
    match parseJson content with
    | none => str "unknown"
    | some pkg => pkg.version

/-- Model of `version.split('-')[0]`. -/
def dashHead (v : Str) : Str := ((splitOnChar '-' v).get? 0).getD []

/-- The regex `^(.*)-beta\.(\d+)$` (and its alpha twin) applied to a
version: with a greedy `.*`, it matches exactly when the maximal trailing
digit run is nonempty and is preceded by the tag (`-beta.` or `-alpha.`),
returning the part before the tag and the digit run. -/
def preMatch (tag : Str) (v : Str) : Option (Str × Str) :=
  let ds := (v.reverse.takeWhile Char.isDigit).reverse
  if ds = [] then none
  else
    let pre := v.take (v.length - ds.length)
    if strEndsWith tag pre then some (pre.take (pre.length - tag.length), ds) else none

/-- Model of `incrementVersion` (publish-packages.js:40-78): split the version on
`-`, take the part before the first dash, split on `.`, parse the three
numeric components, and rebuild per bump type; `beta`/`alpha` instead match
the trailing `-beta.N`/`-alpha.N` of the full version and bump `N`, or
append `-beta.1`/`-alpha.1` when no such suffix exists. -/
def incrementVersion (version ty : Str) : Str :=
  let parts := splitOnChar '.' (dashHead version)
  let major := jsParseIntAt parts 0
  let minor := jsParseIntAt parts 1
  let patch := jsParseIntAt parts 2
  if ty = str "major" then renderNum (major.map (· + 1)) ++ str ".0.0"
  else if ty = str "minor" then
    renderNum major ++ str "." ++ renderNum (minor.map (· + 1)) ++ str ".0"
  else if ty = str "patch" then
    renderNum major ++ str "." ++ renderNum minor ++ str "." ++ renderNum (patch.map (· + 1))
  else if ty = str "beta" then
    match preMatch (str "-beta.") version with
    | some bd => bd.1 ++ str "-beta." ++ natToStr (strToNat bd.2 + 1)
    | none => version ++ str "-beta.1"
  else if ty = str "alpha" then
    match preMatch (str "-alpha.") version with
    | some bd => bd.1 ++ str "-alpha." ++ natToStr (strToNat bd.2 + 1)
    | none => version ++ str "-alpha.1"
  else version

/-- The probing loop of `getNextAvailableVersion`
(publish-packages.js:91-101), with the registry abstracted as a predicate
on version strings (`npm view` succeeding). The fuel is the remaining
attempt budget out of `maxAttempts = 100`; exhausting it with the candidate
still present on the registry corresponds to leaving the loop with
`attempts >= maxAttempts`. -/
def findAvailableVersion (registryHas : Str → Bool) (ty : Str) : Nat → Str → Option Str
  | 0, _ => none
  | fuel + 1, v =>
    if registryHas v then findAvailableVersion registryHas ty fuel (incrementVersion v ty)
    else some v

/-- The try-block of `getNextAvailableVersion`
(publish-packages.js:82-107): increment locally, probe up to 100
candidates, and throw `Too many attempts to find available version` when
the budget is exhausted. -/
def getNextAvailableVersionCore (registryHas : Str → Bool) (currentVersion ty : Str) : JsResult :=
  match findAvailableVersion registryHas ty 100 (incrementVersion currentVersion ty) with
  | some v => JsResult.ok v
  | none => JsResult.err (str "Too many attempts to find available version")

/-- Model of `getNextAvailableVersion` (publish-packages.js:81-113) as a whole: the
catch handler turns any throw from the try-block into a logged warning and
a fallback to the plain local increment of the current version. -/
def getNextAvailableVersion (registryHas : Str → Bool) (currentVersion ty : Str) : Str :=
  match getNextAvailableVersionCore registryHas currentVersion ty with
  | JsResult.ok v => v
  | JsResult.err _ => incrementVersion currentVersion ty

/-! ## publish-packages.js: manifest rewriting and the publish flow -/

/-- The string `workspace:*` as a character list. -/
def workspaceStar : Str := str "workspace:*"

/-- The workspace-range test of publish-packages.js:143:
`value === 'workspace:*' || value.startsWith('workspace:')`. -/
def isWorkspaceRange (r : Str) : Bool :=
  r = workspaceStar || strStartsWith (str "workspace:") r

/-- Model of `packageVersions[depName]`: association-list lookup by name. -/
def lookupVersion (vs : List (Str × Str)) (n : Str) : Option Str :=
  (vs.find? fun p => p.1 == n).map Prod.snd

/-- JavaScript truthiness of `packageVersions[depName]`: present and not
the empty string. -/
def truthy : Option Str → Bool
  | none => false
  | some s => !s.isEmpty

/-- The per-entry body of `fixWorkspaceDependencies`
(publish-packages.js:141-151): a workspace-protocol range naming an
internal package with a truthy recorded version is replaced by that
version; every other entry is left alone. -/
def fixEntry (vs : List (Str × Str)) (e : Str × Str) : Str × Str :=
  if isWorkspaceRange e.2 then
    if isInternalPackage e.1 && truthy (lookupVersion vs e.1) then
      (e.1, (lookupVersion vs e.1).getD e.2)
    else e
  else e

/-- Model of `fixWorkspaceDependencies` (publish-packages.js:130-158): apply
`fixEntry` across dependencies, devDependencies and peerDependencies;
nothing else in the manifest is touched. -/
def fixWorkspaceDependencies (vs : List (Str × Str)) (m : Manifest) : Manifest :=
  { m with
    dependencies := m.dependencies.map (fixEntry vs)
    devDependencies := m.devDependencies.map (fixEntry vs)
    peerDependencies := m.peerDependencies.map (fixEntry vs) }

/-- The per-entry body of `restoreWorkspaceDependencies`
(publish-packages.js:172-179): every entry naming an internal package is
set to the fixed string `workspace:*`, regardless of its previous value. -/
def restoreEntry (e : Str × Str) : Str × Str :=
  if isInternalPackage e.1 then (e.1, workspaceStar) else e

/-- Model of `restoreWorkspaceDependencies` (publish-packages.js:161-186). -/
def restoreWorkspaceDependencies (m : Manifest) : Manifest :=
  { m with
    dependencies := m.dependencies.map restoreEntry
    devDependencies := m.devDependencies.map restoreEntry
    peerDependencies := m.peerDependencies.map restoreEntry }

/-- Model of `updateVersion` (publish-packages.js:116-127): overwrite the version
field. -/
def updateVersion (newVersion : Str) (m : Manifest) : Manifest :=
  { m with version := newVersion }

/-- Outcome of a try-block that runs external commands: `ok`, or a thrown
error. -/
inductive RunOutcome where
  | ok
  | threw
deriving DecidableEq

/-- The publish attempt for one package (publish-packages.js:367-385, and
identically 449-462 and 553-569): `fixWorkspaceDependencies`, then inside
`try` the version write, the build (skipped under `--no-build`) and the
publish, and in `finally` the unconditional restore. The resulting
manifest state and the propagated try-block outcome are returned; the
restore runs on both paths, which is why the final manifest does not
depend on the build/publish outcomes. -/
def publishOneRun (noBuild buildOk publishOk : Bool) (vs : List (Str × Str))
    (newVersion : Str) (m : Manifest) : Manifest × RunOutcome :=
  let fixed := fixWorkspaceDependencies vs m
  let written := updateVersion newVersion fixed
  let outcome : RunOutcome :=
    if !noBuild && !buildOk then RunOutcome.threw
    else if !publishOk then RunOutcome.threw
    else RunOutcome.ok
  (restoreWorkspaceDependencies written, outcome)

/-- The observable steps of one package's publish flow, for stating the
ordering property. -/
inductive PubStep where
  | readVersion
  | computeVersion
  | fixDeps
  | writeVersion
  | build
  | publish
  | restoreDeps
deriving DecidableEq

/-- Step trace of the per-package flow of publish-packages.js:340-385:
read the current version, compute the next one, fix workspace
dependencies, then inside `try` write the version, build (unless
`--no-build`), publish, with the `finally` restore last; a build failure
skips the publish but still restores. -/
def publishOneTrace (noBuild buildOk : Bool) : List PubStep :=
  let pre := [PubStep.readVersion, PubStep.computeVersion, PubStep.fixDeps, PubStep.writeVersion]
  if noBuild then pre ++ [PubStep.publish, PubStep.restoreDeps]
  else if !buildOk then pre ++ [PubStep.build, PubStep.restoreDeps]
  else pre ++ [PubStep.build, PubStep.publish, PubStep.restoreDeps]

/-- Process-level outcome of a script run: normal completion, or
`process.exit(code)` after a logged message. -/
inductive ScriptExit where
  | success
  | exited (code : Nat) (logged : Bool)
deriving DecidableEq

/-- The process-level outcome of the publish script around one package
(publish-packages.js:587-590): a throw escaping `main` reaches
`main().catch`, which logs `Publishing failed:` and calls
`process.exit(1)`. -/
def publishScriptRun (noBuild buildOk publishOk : Bool) (vs : List (Str × Str))
    (newVersion : Str) (m : Manifest) : ScriptExit :=
  match (publishOneRun noBuild buildOk publishOk vs newVersion m).2 with
  | RunOutcome.ok => ScriptExit.success
  | RunOutcome.threw => ScriptExit.exited 1 true

/-- Model of `generateApiTypes` of toolkit/scripts/generate-api-types.js:14-61: a
missing swagger input file logs an error and calls `process.exit(1)`; a
generator failure is caught, logged, and also exits with 1. -/
def generateApiTypesRun (inputExists generatorOk : Bool) : ScriptExit :=
  if !inputExists then ScriptExit.exited 1 true
  else if !generatorOk then ScriptExit.exited 1 true
  else ScriptExit.success

/-- Model of `generateApiTypes` and `main` of toolkit/scripts/generate-api.js:39-101
and 341-350, with the same exit discipline. -/
def generateApiMainRun (inputExists generatorOk : Bool) : ScriptExit :=
  if !inputExists then ScriptExit.exited 1 true
  else if !generatorOk then ScriptExit.exited 1 true
  else ScriptExit.success

/-! ## generate-api-types.js: import-path rewriting (`fixApiImports`) -/

/-- The literal `from './` beginning every relative-import match. -/
def impPat : Str := str "from " ++ [qc, '.', '/']

/-- The literal `from '../types/` that begins a rewritten type import. -/
def rewPre : Str := str "from " ++ [qc] ++ str "../types/"

/-- The literal pattern `from './data-contracts'` of the first `replace` of
`fixApiImports` (generate-api-types.js:169-172). -/
def pat1 : Str := impPat ++ str "data-contracts" ++ [qc]

/-- Its replacement `from '../types/data-contracts'`. -/
def rep1 : Str := rewPre ++ str "data-contracts" ++ [qc]

/-- The literal pattern `from './httpClient'` of the second `replace`
(generate-api-types.js:175-178). -/
def pat2 : Str := impPat ++ str "httpClient" ++ [qc]

/-- Its replacement `from './HttpClient'`. -/
def rep2 : Str := impPat ++ str "HttpClient" ++ [qc]

/-- One attempted match of the regex `from '\.\/([^']+)'` at the head of
the string: the literal `from './`, then a nonempty quote-free capture,
then the closing quote; returns the capture and the remainder after the
match. -/
def matchImport (s : Str) : Option (Str × Str) :=
  if strStartsWith impPat s then
    let r := s.drop 8
    let p := r.takeWhile fun c => c != qc
    if p = [] then none
    else
      match r.drop p.length with
      | [] => none
      | c :: t => if c = qc then some (p, t) else none
  else none

/-- The replacement-function test of generate-api-types.js:185: the
captured path is rewritten when it contains `contract` or equals `types`. -/
def isTriggered (p : Str) : Bool := strContains p (str "contract") || p = str "types"

/-- The string substituted for one match: the path redirected into
`../types/` when triggered, the match itself (unchanged) otherwise. -/
def rewritePath (p : Str) : Str :=
  if isTriggered p then rewPre ++ p ++ [qc] else impPat ++ p ++ [qc]

/-- Left-to-right global-regex scan for the third `replace` of
`fixApiImports`: at each position, either replace a match and resume after
it, or emit one character; fuel is the input length. -/
def scanRelImports : Nat → Str → Str
  | 0, _ => []
  | _, [] => []
  | fuel + 1, c :: rest =>
    match matchImport (c :: rest) with
    | some pt => rewritePath pt.1 ++ scanRelImports fuel pt.2
    | none => c :: scanRelImports fuel rest

/-- The third `replace` of `fixApiImports` (generate-api-types.js:181-190)
over a whole file content. -/
def rewriteRelImports (s : Str) : Str := scanRelImports s.length s

/-- Left-to-right global replacement of a literal pattern, as JavaScript
`String.prototype.replace` with a global regex of literal characters;
fuel is the input length. -/
def replaceAllN (pat rep : Str) : Nat → Str → Str
  | 0, _ => []
  | _, [] => []
  | fuel + 1, c :: rest =>
    if strStartsWith pat (c :: rest) then rep ++ replaceAllN pat rep fuel ((c :: rest).drop pat.length)
    else c :: replaceAllN pat rep fuel rest

/-- Wrapper fixing the fuel of `replaceAllN` to the input length. -/
def replaceAllStr (pat rep s : Str) : Str := replaceAllN pat rep s.length s

/-- Model of `fixApiImports` (generate-api-types.js:156-198) on one file content:
the data-contracts literal replacement, then the httpClient casing
replacement, then the relative-import regex rewrite, in source order. -/
def fixApiImports (s : Str) : Str :=
  rewriteRelImports (replaceAllStr pat2 rep2 (replaceAllStr pat1 rep1 s))

/-- Decidable check that no occurrence of `pat` starts anywhere in `s`. -/
def noOccB (pat s : Str) : Bool :=
  (List.range (s.length + 1)).all fun i => !strStartsWith pat (s.drop i)

/-- Decidable cleanliness of a content for the import rewrite: no position
carries a match whose captured path both triggers rewriting and ends with
`from ` (such a path would splice a new, initially skipped import
reference into the rewritten text). -/
def cleanB (s : Str) : Bool :=
  (List.range s.length).all fun i =>
    match matchImport (s.drop i) with
    | some pt => !(isTriggered pt.1 && strEndsWith (str "from ") pt.1)
    | none => true

/-! ## generate-api-types.js: method renaming (`renameApiMethods`) -/

/-- JavaScript `\w`: ASCII letters, digits and underscore. -/
def isWordChar (c : Char) : Bool := c.isAlpha || c.isDigit || c = '_'

/-- The literal `Controller`. -/
def ctrlStr : Str := str "Controller"

/-- Validity of a split point `k` inside the word run `W` for the regex
`(\w+)Controller([A-Z]\w+)`: at least one prefix character, the literal
`Controller` at `k`, and after it an uppercase letter followed by at least
one more character of the run. -/
def validK (W : Str) (k : Nat) : Bool :=
  decide (1 ≤ k) && strStartsWith ctrlStr (W.drop k) &&
    match W.drop (k + 10) with
    | u :: _ :: _ => u.isUpper
    | _ => false

/-- The split point chosen by the greedy `(\w+)`: the largest valid `k`
(backtracking from the longest prefix). -/
def lastValidK (W : Str) : Option Nat := (List.range W.length).reverse.find? (validK W)

/-- One attempted match of `(\w+)Controller([A-Z]\w+)` at the head of the
string: the maximal word run is taken, the greedy split point located, and
the replacement (the method with its first letter lowercased) plus the
remainder after the run are returned. -/
def tryRenameAt (s : Str) : Option (Str × Str) :=
  let W := s.takeWhile isWordChar
  match lastValidK W with
  | some k =>
    match W.drop (k + 10) with
    | u :: m => some (u.toLower :: m, s.drop W.length)
    | [] => none
  | none => none

/-- Left-to-right global-regex scan for the method rename
(generate-api-types.js:221-229); fuel is the input length. -/
def renameScan : Nat → Str → Str
  | 0, _ => []
  | _, [] => []
  | fuel + 1, c :: rest =>
    match tryRenameAt (c :: rest) with
    | some rt => rt.1 ++ renameScan fuel rt.2
    | none => c :: renameScan fuel rest

/-- Model of `renameApiMethods` (generate-api-types.js:201-236) over one file
content. -/
def renameApiMethods (s : Str) : Str := renameScan s.length s

/-- Decidable absence of any `(\w+)Controller([A-Z]\w+)` match anywhere in
the string. -/
def noRenamePatternB (s : Str) : Bool :=
  (List.range s.length).all fun i => (tryRenameAt (s.drop i)).isNone

/-- Decidable check that a string is a nonempty run of digits. -/
def isDigitStr (s : Str) : Bool := !s.isEmpty && s.all Char.isDigit

/-! ## Helper lemmas: strings and lists -/

theorem strStartsWith_append_self (pat x : Str) : strStartsWith pat (pat ++ x) = true := by
  induction pat with
  | nil => rfl
  | cons a as ih => simp [strStartsWith, ih]

theorem eq_append_drop_of_strStartsWith {pat s : Str} (h : strStartsWith pat s = true) :
    s = pat ++ s.drop pat.length := by
  induction pat generalizing s with
  | nil => simp
  | cons a as ih =>
    cases s with
    | nil => simp [strStartsWith] at h
    | cons b bs =>
      simp only [strStartsWith, Bool.and_eq_true, beq_iff_eq] at h
      obtain ⟨rfl, h2⟩ := h
      simpa using ih h2

theorem strStartsWith_length_le {pat s : Str} (h : strStartsWith pat s = true) :
    pat.length ≤ s.length := by
  induction pat generalizing s with
  | nil => simp
  | cons a as ih =>
    cases s with
    | nil => simp [strStartsWith] at h
    | cons b bs =>
      simp only [strStartsWith, Bool.and_eq_true] at h
      simpa [Nat.succ_le_succ_iff] using ih h.2

theorem takeWhile_all_eq {f : Char → Bool} {l : Str} (h : ∀ c ∈ l, f c = true) :
    l.takeWhile f = l := by
  induction l with
  | nil => rfl
  | cons a t ih =>
    simp only [List.takeWhile_cons, h a (by simp)]
    simp [ih fun c hc => h c (by simp [hc])]

theorem takeWhile_append_stop {f : Char → Bool} {p : Str} {x : Char} (t : Str)
    (hall : ∀ c ∈ p, f c = true) (hx : f x = false) :
    (p ++ x :: t).takeWhile f = p := by
  induction p with
  | nil => simp [List.takeWhile_cons, hx]
  | cons a as ih =>
    simp only [List.cons_append, List.takeWhile_cons, hall a (by simp)]
    simp [ih fun c hc => hall c (by simp [hc])]

theorem drop_takeWhile_length (f : Char → Bool) (l : Str) :
    l.drop (l.takeWhile f).length = l.dropWhile f := by
  induction l with
  | nil => rfl
  | cons a t ih => by_cases h : f a <;> simp [List.takeWhile_cons, List.dropWhile_cons, h, ih]

theorem splitOnChar_of_not_mem {sep : Char} {s : Str} (h : ∀ ch ∈ s, ch ≠ sep) :
    splitOnChar sep s = [s] := by
  induction s with
  | nil => rfl
  | cons c rest ih =>
    have hrest := ih fun ch hc => h ch (by simp [hc])
    simp [splitOnChar, hrest, h c (by simp)]

theorem splitOnChar_ne_nil (sep : Char) (s : Str) : splitOnChar sep s ≠ [] := by
  cases s with
  | nil => simp [splitOnChar]
  | cons c rest =>
    simp only [splitOnChar]
    match h : splitOnChar sep rest with
    | [] => simp
    | g :: gs => by_cases hc : c = sep <;> simp [hc]

theorem splitOnChar_append_sep {sep : Char} {x : Str} (y : Str) (h : ∀ ch ∈ x, ch ≠ sep) :
    splitOnChar sep (x ++ sep :: y) = x :: splitOnChar sep y := by
  induction x with
  | nil =>
    obtain ⟨g, gs, hy⟩ : ∃ g gs, splitOnChar sep y = g :: gs := by
      match hy : splitOnChar sep y with
      | [] => exact absurd hy (splitOnChar_ne_nil sep y)
      | g :: gs => exact ⟨g, gs, rfl⟩
    simp only [List.nil_append, splitOnChar]
    rw [hy]
    simp
  | cons c rest ih =>
    have hrest := ih fun ch hc => h ch (by simp [hc])
    simp only [List.cons_append, splitOnChar, List.append_eq]
    rw [hrest]
    simp [h c (by simp)]

theorem jsParseIntNat_digits {s : Str} (h : isDigitStr s = true) :
    jsParseIntNat s = some (strToNat s) := by
  simp only [isDigitStr, Bool.and_eq_true, List.all_eq_true] at h
  have hne : s ≠ [] := by
    intro he; rw [he] at h; simp at h
  rw [jsParseIntNat, takeWhile_all_eq h.2]
  simp [hne]

theorem digit_ne_dot {c : Char} (h : c.isDigit = true) : c ≠ '.' := by
  intro he; subst he; simp at h

theorem digit_ne_dash {c : Char} (h : c.isDigit = true) : c ≠ '-' := by
  intro he; subst he; simp at h

theorem map_congr_fn {α β : Type} {f g : α → β} (h : ∀ a, f a = g a) (l : List α) :
    l.map f = l.map g := by
  induction l with
  | nil => rfl
  | cons a t ih => simp [h a, ih]

/-! ## Lemmas for the publish flow -/

theorem fixEntry_fst (vs : List (Str × Str)) (e : Str × Str) : (fixEntry vs e).1 = e.1 := by
  rw [fixEntry]
  split
  · split <;> rfl
  · rfl

theorem restore_fix_entry (vs : List (Str × Str)) (e : Str × Str) :
    restoreEntry (fixEntry vs e) = restoreEntry e := by
  by_cases h : isInternalPackage e.1
  · rw [restoreEntry, restoreEntry, fixEntry_fst]
    simp [h]
  · have hfix : fixEntry vs e = e := by
      rw [fixEntry]
      by_cases h1 : isWorkspaceRange e.2 <;> simp [h1, h]
    rw [hfix]

theorem map_restore_id {l : List (Str × Str)}
    (h : ∀ e ∈ l, isInternalPackage e.1 = true → e.2 = workspaceStar) :
    l.map restoreEntry = l := by
  induction l with
  | nil => rfl
  | cons e t ih =>
    have ht := ih fun x hx => h x (by simp [hx])
    have he : restoreEntry e = e := by
      rw [restoreEntry]
      by_cases hi : isInternalPackage e.1
      · have h2 := h e (by simp) hi
        simp only [hi, if_true]
        rw [← h2]
      · simp [hi]
    simp [he, ht]

/-- C1: the claim that workspace ranges are restored bit-for-bit fails on
the code: a dependency on the internal server package declared as
`workspace:^1.0.0` before the run comes back as `workspace:*` after a
successful publish attempt, not as the original string. -/
theorem c1_counterexample :
    ((publishOneRun false true true
        [(configName, str "1.0.1"), (serverName, str "1.0.1"), (clientName, str "1.0.1")]
        (str "1.0.1")
        ⟨str "1.0.0", [(serverName, str "workspace:^1.0.0")], [], [], []⟩).1).dependencies
      = [(serverName, workspaceStar)]
    ∧ workspaceStar ≠ str "workspace:^1.0.0" := by decide

/-- C1 (amended): after every publish attempt, success or failure, every
dependency entry naming one of the three internal packages holds exactly
the string `workspace:*`, every other entry and every other manifest field
except the version is unchanged, and in particular a manifest whose
internal entries all read `workspace:*` before the run gets them back
unchanged. -/
theorem c1_amended_restore_normalizes (nb bo po : Bool) (vs : List (Str × Str))
    (nv : Str) (m : Manifest) :
    ((publishOneRun nb bo po vs nv m).1.dependencies = m.dependencies.map restoreEntry
    ∧ (publishOneRun nb bo po vs nv m).1.devDependencies = m.devDependencies.map restoreEntry
    ∧ (publishOneRun nb bo po vs nv m).1.peerDependencies = m.peerDependencies.map restoreEntry
    ∧ (publishOneRun nb bo po vs nv m).1.otherFields = m.otherFields
    ∧ (publishOneRun nb bo po vs nv m).1.version = nv)
    ∧ ((∀ e ∈ m.dependencies, isInternalPackage e.1 = true → e.2 = workspaceStar) →
        (publishOneRun nb bo po vs nv m).1.dependencies = m.dependencies) := by
  have hdep : (publishOneRun nb bo po vs nv m).1.dependencies
      = m.dependencies.map restoreEntry := by
    simp only [publishOneRun, restoreWorkspaceDependencies, updateVersion,
      fixWorkspaceDependencies, List.map_map]
    exact map_congr_fn (fun e => restore_fix_entry vs e) m.dependencies
  refine ⟨⟨hdep, ?_, ?_, ?_, ?_⟩, ?_⟩
  · simp only [publishOneRun, restoreWorkspaceDependencies, updateVersion,
      fixWorkspaceDependencies, List.map_map]
    exact map_congr_fn (fun e => restore_fix_entry vs e) m.devDependencies
  · simp only [publishOneRun, restoreWorkspaceDependencies, updateVersion,
      fixWorkspaceDependencies, List.map_map]
    exact map_congr_fn (fun e => restore_fix_entry vs e) m.peerDependencies
  · rfl
  · rfl
  · intro h
    rw [hdep, map_restore_id h]

/-- C1 witness: a run with a failing publish step still leaves the
internal `workspace:*` entry and the external entry exactly as they were. -/
theorem c1_witness :
    (publishOneRun true true false [] (str "2.0.0")
        ⟨str "1.0.0", [(serverName, workspaceStar), (str "axios", str "^1.0.0")], [], [],
          [(str "name", serverName)]⟩).1.dependencies
      = [(serverName, workspaceStar), (str "axios", str "^1.0.0")] :=
  (c1_amended_restore_normalizes true true false [] (str "2.0.0")
      ⟨str "1.0.0", [(serverName, workspaceStar), (str "axios", str "^1.0.0")], [], [],
        [(str "name", serverName)]⟩).2 (by decide)

/-- C5: the workspace-dependency substitution rewrites the three
dependency tables pointwise, changes only entries whose range is
workspace-protocol and whose name is an internal package with a truthy
recorded version, replaces such entries by that recorded version, and
leaves the version field and all other manifest fields untouched. -/
theorem c5_fix_frame (vs : List (Str × Str)) (m : Manifest) :
    ((fixWorkspaceDependencies vs m).version = m.version
    ∧ (fixWorkspaceDependencies vs m).otherFields = m.otherFields
    ∧ (fixWorkspaceDependencies vs m).dependencies = m.dependencies.map (fixEntry vs)
    ∧ (fixWorkspaceDependencies vs m).devDependencies = m.devDependencies.map (fixEntry vs)
    ∧ (fixWorkspaceDependencies vs m).peerDependencies = m.peerDependencies.map (fixEntry vs))
    ∧ (∀ e : Str × Str,
        ¬(isWorkspaceRange e.2 = true ∧ isInternalPackage e.1 = true
          ∧ truthy (lookupVersion vs e.1) = true) →
        fixEntry vs e = e)
    ∧ (∀ n r v : Str, isWorkspaceRange r = true → isInternalPackage n = true →
        lookupVersion vs n = some v → v ≠ [] → fixEntry vs (n, r) = (n, v)) := by
  refine ⟨⟨rfl, rfl, rfl, rfl, rfl⟩, ?_, ?_⟩
  · intro e he
    rw [fixEntry]
    by_cases h1 : isWorkspaceRange e.2
    · by_cases h2 : isInternalPackage e.1
      · by_cases h3 : truthy (lookupVersion vs e.1)
        · exact absurd ⟨h1, h2, h3⟩ he
        · simp [h1, h2, h3]
      · simp [h1, h2]
    · simp [h1]
  · intro n r v h1 h2 h3 h4
    have htv : truthy (some v) = true := by
      rw [truthy]
      simpa using h4
    rw [fixEntry]
    simp [h1, h2, h3, htv]

/-- C5 witness: a non-workspace range naming an external package is left
alone by the substitution, and a `workspace:*` range on the internal
server package with recorded version `1.2.0` becomes `1.2.0`. -/
theorem c5_witness :
    fixEntry [(serverName, str "1.2.0")] (str "axios", str "^1.0.0") = (str "axios", str "^1.0.0")
    ∧ fixEntry [(serverName, str "1.2.0")] (serverName, workspaceStar) = (serverName, str "1.2.0") :=
  ⟨(c5_fix_frame [(serverName, str "1.2.0")] ⟨[], [], [], [], []⟩).2.1
      (str "axios", str "^1.0.0") (by decide),
    (c5_fix_frame [(serverName, str "1.2.0")] ⟨[], [], [], [], []⟩).2.2
      serverName workspaceStar (str "1.2.0") (by decide) (by decide) (by decide) (by decide)⟩

/-- C7: a missing swagger input makes both codegen scripts log and exit
with status 1 whatever the generator would have done, and a failed build
or failed publish subprocess makes the publish script's process exit with
status 1 after logging, for every manifest and version bookkeeping. -/
theorem c7_unrecoverable_error_exits :
    (∀ g, generateApiTypesRun false g = ScriptExit.exited 1 true)
    ∧ (∀ g, generateApiMainRun false g = ScriptExit.exited 1 true)
    ∧ (∀ (po : Bool) (vs : List (Str × Str)) (nv : Str) (m : Manifest),
        publishScriptRun false false po vs nv m = ScriptExit.exited 1 true)
    ∧ (∀ (nb : Bool) (vs : List (Str × Str)) (nv : Str) (m : Manifest),
        publishScriptRun nb true false vs nv m = ScriptExit.exited 1 true) := by
  refine ⟨fun g => rfl, fun g => rfl, fun po vs nv m => rfl, fun nb vs nv m => ?_⟩
  cases nb <;> rfl

/-- C8: with building enabled and both subprocesses succeeding, the
per-package flow performs exactly read current version, compute next
version, fix workspace dependencies, write version, build, publish,
restore, in that order; and every other flag combination performs a
subsequence of that order (never a reordering). -/
theorem c8_publish_step_order :
    publishOneTrace false true
      = [PubStep.readVersion, PubStep.computeVersion, PubStep.fixDeps, PubStep.writeVersion,
        PubStep.build, PubStep.publish, PubStep.restoreDeps]
    ∧ ∀ nb bo : Bool, (publishOneTrace nb bo).Sublist
        [PubStep.readVersion, PubStep.computeVersion, PubStep.fixDeps, PubStep.writeVersion,
          PubStep.build, PubStep.publish, PubStep.restoreDeps] := by
  constructor
  · rfl
  · intro nb bo
    cases nb <;> cases bo <;> simp [publishOneTrace]

/-- C9: a failed read of package.json or a failed JSON parse makes
`getCurrentVersion` return the string `unknown` rather than propagate the
error, and a successful parse returns the manifest's version field. -/
theorem c9_getCurrentVersion_fallback :
    (∀ p, getCurrentVersion none p = str "unknown")
    ∧ (∀ p c, p c = none → getCurrentVersion (some c) p = str "unknown")
    ∧ (∀ p c pkg, p c = some pkg → getCurrentVersion (some c) p = pkg.version) := by
  refine ⟨fun p => rfl, fun p c h => ?_, fun p c pkg h => ?_⟩ <;> simp [getCurrentVersion, h]

/-- C9 witness: concrete parse failure and parse success. -/
theorem c9_witness :
    getCurrentVersion (some (str "not json")) (fun _ => none) = str "unknown"
    ∧ getCurrentVersion (some (str "ok"))
        (fun _ => some ⟨str "1.2.3", [], [], [], []⟩) = str "1.2.3" :=
  ⟨c9_getCurrentVersion_fallback.2.1 (fun _ => none) (str "not json") rfl,
    c9_getCurrentVersion_fallback.2.2 (fun _ => some ⟨str "1.2.3", [], [], [], []⟩)
      (str "ok") ⟨str "1.2.3", [], [], [], []⟩ rfl⟩

/-! ## C2: the registry-probing attempt ceiling -/

theorem findAvailableVersion_all_exists (reg : Str → Bool) (hreg : ∀ v, reg v = true)
    (ty : Str) : ∀ (fuel : Nat) (v : Str), findAvailableVersion reg ty fuel v = none := by
  intro fuel
  induction fuel with
  | zero => intro v; rfl
  | succ n ih => intro v; simp [findAvailableVersion, hreg v, ih]

/-- C2 counterexample: against a registry on which every probed version
already exists, `getNextAvailableVersion` does not declare failure; the
try-block's `Too many attempts` throw is swallowed by the function's own
catch handler, and the concrete call still returns the version string
`1.0.1` — the plain local increment, itself a version the registry
reports as existing. -/
theorem c2_counterexample :
    getNextAvailableVersion (fun _ => true) (str "1.0.0") (str "patch") = str "1.0.1"
    ∧ getNextAvailableVersionCore (fun _ => true) (str "1.0.0") (str "patch")
        = JsResult.err (str "Too many attempts to find available version")
    ∧ (fun (_ : Str) => true) (str "1.0.1") = true := by
  have hcore : getNextAvailableVersionCore (fun _ => true) (str "1.0.0") (str "patch")
      = JsResult.err (str "Too many attempts to find available version") := by
    rw [getNextAvailableVersionCore,
      findAvailableVersion_all_exists (fun _ => true) (fun _ => rfl)]
  refine ⟨?_, hcore, rfl⟩
  rw [getNextAvailableVersion, hcore]
  decide

/-- C2 (amended): the probing loop is bounded by the fixed ceiling of 100
attempts, and when every candidate up to that ceiling exists on the
registry the try-block does throw `Too many attempts to find available
version` — but the function's own catch swallows that error, logs a
warning, and returns the plain local increment of the current version
instead of propagating a failure. -/
theorem c2_amended_ceiling_fallback (reg : Str → Bool) (currentVersion ty : Str)
    (hreg : ∀ v, reg v = true) :
    getNextAvailableVersionCore reg currentVersion ty
      = JsResult.err (str "Too many attempts to find available version")
    ∧ getNextAvailableVersion reg currentVersion ty = incrementVersion currentVersion ty := by
  have hcore : getNextAvailableVersionCore reg currentVersion ty
      = JsResult.err (str "Too many attempts to find available version") := by
    rw [getNextAvailableVersionCore, findAvailableVersion_all_exists reg hreg]
  exact ⟨hcore, by rw [getNextAvailableVersion, hcore]⟩

/-- C2 witness: the amended behavior at a concrete registry and version. -/
theorem c2_witness :
    getNextAvailableVersionCore (fun _ => true) (str "2.3.4") (str "minor")
      = JsResult.err (str "Too many attempts to find available version")
    ∧ getNextAvailableVersion (fun _ => true) (str "2.3.4") (str "minor")
        = incrementVersion (str "2.3.4") (str "minor") :=
  c2_amended_ceiling_fallback (fun _ => true) (str "2.3.4") (str "minor") (fun _ => rfl)

/-! ## C4 and C10: `incrementVersion` -/

theorem isDigitStr_spec {s : Str} (h : isDigitStr s = true) :
    s ≠ [] ∧ ∀ c ∈ s, c.isDigit = true := by
  simp only [isDigitStr, Bool.and_eq_true, List.all_eq_true] at h
  refine ⟨?_, h.2⟩
  intro he
  rw [he] at h
  simp at h

theorem version_char_ne_dash {a b c : Str} {ch : Char}
    (ha : ∀ x ∈ a, x.isDigit = true) (hb : ∀ x ∈ b, x.isDigit = true)
    (hc : ∀ x ∈ c, x.isDigit = true) (h : ch ∈ a ++ '.' :: (b ++ '.' :: c)) : ch ≠ '-' := by
  simp only [List.mem_append, List.mem_cons] at h
  rcases h with h | h | h
  · exact digit_ne_dash (ha ch h)
  · subst h; decide
  · rcases h with h | h | h
    · exact digit_ne_dash (hb ch h)
    · subst h; decide
    · exact digit_ne_dash (hc ch h)

theorem split_three {a b c : Str} (ha : ∀ x ∈ a, x.isDigit = true)
    (hb : ∀ x ∈ b, x.isDigit = true) (hc : ∀ x ∈ c, x.isDigit = true) :
    splitOnChar '.' (a ++ '.' :: (b ++ '.' :: c)) = [a, b, c] := by
  rw [splitOnChar_append_sep _ fun ch hch => digit_ne_dot (ha ch hch)]
  rw [splitOnChar_append_sep _ fun ch hch => digit_ne_dot (hb ch hch)]
  rw [splitOnChar_of_not_mem fun ch hch => digit_ne_dot (hc ch hch)]

theorem dashHead_digits {a b c : Str} (ha : ∀ x ∈ a, x.isDigit = true)
    (hb : ∀ x ∈ b, x.isDigit = true) (hc : ∀ x ∈ c, x.isDigit = true) :
    dashHead (a ++ '.' :: (b ++ '.' :: c)) = a ++ '.' :: (b ++ '.' :: c) := by
  rw [dashHead, splitOnChar_of_not_mem fun ch hch => version_char_ne_dash ha hb hc hch]
  rfl

theorem dashHead_digits_pre {a b c : Str} (suf : Str) (ha : ∀ x ∈ a, x.isDigit = true)
    (hb : ∀ x ∈ b, x.isDigit = true) (hc : ∀ x ∈ c, x.isDigit = true) :
    dashHead (a ++ '.' :: (b ++ '.' :: (c ++ '-' :: suf))) = a ++ '.' :: (b ++ '.' :: c) := by
  have heq : a ++ '.' :: (b ++ '.' :: (c ++ '-' :: suf))
      = (a ++ '.' :: (b ++ '.' :: c)) ++ '-' :: suf := by simp
  rw [heq, dashHead,
    splitOnChar_append_sep _ fun ch hch => version_char_ne_dash ha hb hc hch]
  rfl

theorem preMatch_append {tag ds : Str} (base : Str) (tc : Char) (tr : Str)
    (htag : tag.reverse = tc :: tr) (htc : tc.isDigit = false) (hds : isDigitStr ds = true) :
    preMatch tag (base ++ tag ++ ds) = some (base, ds) := by
  obtain ⟨hne, hall⟩ := isDigitStr_spec hds
  have hrev : (base ++ tag ++ ds).reverse = ds.reverse ++ tc :: (tr ++ base.reverse) := by
    simp [List.reverse_append, htag]
  have htake : (base ++ tag ++ ds).reverse.takeWhile Char.isDigit = ds.reverse := by
    rw [hrev]
    exact takeWhile_append_stop _ (fun x hx => hall x (by simpa using hx)) htc
  have hlen : (base ++ tag ++ ds).length - ds.length = (base ++ tag).length := by
    simp only [List.length_append]
    omega
  have hends : strEndsWith tag (base ++ tag) = true := by
    rw [strEndsWith, List.reverse_append]
    exact strStartsWith_append_self tag.reverse base.reverse
  have hpre : (base ++ tag).length - tag.length = base.length := by simp
  rw [preMatch]
  simp only [htake, List.reverse_reverse, hne, if_false, hlen, List.take_left, hends,
    if_true, hpre]

theorem jsParseIntAt_three {a b c : Str} (ha : isDigitStr a = true) (hb : isDigitStr b = true)
    (hc : isDigitStr c = true) :
    jsParseIntAt [a, b, c] 0 = some (strToNat a)
    ∧ jsParseIntAt [a, b, c] 1 = some (strToNat b)
    ∧ jsParseIntAt [a, b, c] 2 = some (strToNat c) := by
  refine ⟨?_, ?_, ?_⟩ <;>
    simp [jsParseIntAt, jsParseIntNat_digits, ha, hb, hc]

theorem incrementVersion_mmp {a b c v : Str} (ha : isDigitStr a = true)
    (hb : isDigitStr b = true) (hc : isDigitStr c = true)
    (hhead : dashHead v = a ++ '.' :: (b ++ '.' :: c)) :
    incrementVersion v (str "major") = natToStr (strToNat a + 1) ++ str ".0.0"
    ∧ incrementVersion v (str "minor")
        = natToStr (strToNat a) ++ str "." ++ natToStr (strToNat b + 1) ++ str ".0"
    ∧ incrementVersion v (str "patch")
        = natToStr (strToNat a) ++ str "." ++ natToStr (strToNat b) ++ str "."
          ++ natToStr (strToNat c + 1) := by
  have hsplit := split_three (isDigitStr_spec ha).2 (isDigitStr_spec hb).2 (isDigitStr_spec hc).2
  obtain ⟨hpa, hpb, hpc⟩ := jsParseIntAt_three ha hb hc
  refine ⟨?_, ?_, ?_⟩
  · simp only [incrementVersion, hhead, hsplit]
    simp [hpa, renderNum]
  · simp only [incrementVersion, hhead, hsplit]
    rw [if_neg (by decide)]
    simp [hpa, hpb, renderNum]
  · simp only [incrementVersion, hhead, hsplit]
    rw [if_neg (by decide), if_neg (by decide)]
    simp [hpa, hpb, hpc, renderNum]

theorem incrementVersion_beta_suffix {ds : Str} (base : Str) (hds : isDigitStr ds = true) :
    incrementVersion (base ++ str "-beta." ++ ds) (str "beta")
      = base ++ str "-beta." ++ natToStr (strToNat ds + 1) := by
  have hm := @preMatch_append (str "-beta.") ds base '.' (str "ateb-") (by decide)
    (by decide) hds
  simp only [incrementVersion]
  rw [if_neg (by decide), if_neg (by decide), if_neg (by decide)]
  simp only [if_true, hm]

theorem incrementVersion_beta_none {v : Str} (h : preMatch (str "-beta.") v = none) :
    incrementVersion v (str "beta") = v ++ str "-beta.1" := by
  simp only [incrementVersion]
  rw [if_neg (by decide), if_neg (by decide), if_neg (by decide)]
  simp only [if_true, h]

/-- C4: on a plain numeric version `A.B.C` the bump computes `(A+1).0.0`
for major, `A.(B+1).0` for minor and `A.B.(C+1)` for patch; a beta bump on
a version carrying a trailing `-beta.N` digit suffix bumps only `N`, and on
a version with no such suffix appends `-beta.1` to the whole version. -/
theorem c4_incrementVersion_bumps :
    (∀ a b c : Str, isDigitStr a = true → isDigitStr b = true → isDigitStr c = true →
      incrementVersion (a ++ '.' :: (b ++ '.' :: c)) (str "major")
        = natToStr (strToNat a + 1) ++ str ".0.0"
      ∧ incrementVersion (a ++ '.' :: (b ++ '.' :: c)) (str "minor")
        = natToStr (strToNat a) ++ str "." ++ natToStr (strToNat b + 1) ++ str ".0"
      ∧ incrementVersion (a ++ '.' :: (b ++ '.' :: c)) (str "patch")
        = natToStr (strToNat a) ++ str "." ++ natToStr (strToNat b) ++ str "."
          ++ natToStr (strToNat c + 1))
    ∧ (∀ base ds : Str, isDigitStr ds = true →
        incrementVersion (base ++ str "-beta." ++ ds) (str "beta")
          = base ++ str "-beta." ++ natToStr (strToNat ds + 1))
    ∧ (∀ v : Str, preMatch (str "-beta.") v = none →
        incrementVersion v (str "beta") = v ++ str "-beta.1") :=
  ⟨fun a b c ha hb hc =>
    incrementVersion_mmp ha hb hc
      (dashHead_digits (isDigitStr_spec ha).2 (isDigitStr_spec hb).2 (isDigitStr_spec hc).2),
    fun base ds hds => incrementVersion_beta_suffix base hds,
    fun v h => incrementVersion_beta_none h⟩

/-- C4 witness: the bumps at `1.2.3`, at `1.0.0-beta.7` and at `1.0.0`. -/
theorem c4_witness :
    incrementVersion (str "1" ++ '.' :: (str "2" ++ '.' :: str "3")) (str "major")
      = natToStr (strToNat (str "1") + 1) ++ str ".0.0"
    ∧ incrementVersion (str "1.0.0" ++ str "-beta." ++ str "7") (str "beta")
        = str "1.0.0" ++ str "-beta." ++ natToStr (strToNat (str "7") + 1)
    ∧ incrementVersion (str "1.0.0") (str "beta") = str "1.0.0" ++ str "-beta.1" :=
  ⟨(c4_incrementVersion_bumps.1 (str "1") (str "2") (str "3")
      (by decide) (by decide) (by decide)).1,
    c4_incrementVersion_bumps.2.1 (str "1.0.0") (str "7") (by decide),
    c4_incrementVersion_bumps.2.2 (str "1.0.0") (by decide)⟩

/-- C10: a major, minor or patch bump on a version carrying any prerelease
suffix after a dash discards the suffix entirely and increments only the
numeric base, so patch on `1.2.3-beta.4` yields `1.2.4`. -/
theorem c10_prerelease_discarded :
    ∀ a b c suf : Str, isDigitStr a = true → isDigitStr b = true → isDigitStr c = true →
      incrementVersion (a ++ '.' :: (b ++ '.' :: (c ++ '-' :: suf))) (str "patch")
        = natToStr (strToNat a) ++ str "." ++ natToStr (strToNat b) ++ str "."
          ++ natToStr (strToNat c + 1)
      ∧ incrementVersion (a ++ '.' :: (b ++ '.' :: (c ++ '-' :: suf))) (str "minor")
        = natToStr (strToNat a) ++ str "." ++ natToStr (strToNat b + 1) ++ str ".0"
      ∧ incrementVersion (a ++ '.' :: (b ++ '.' :: (c ++ '-' :: suf))) (str "major")
        = natToStr (strToNat a + 1) ++ str ".0.0" :=
  fun a b c suf ha hb hc =>
    have h := incrementVersion_mmp ha hb hc
      (dashHead_digits_pre suf (isDigitStr_spec ha).2 (isDigitStr_spec hb).2
        (isDigitStr_spec hc).2)
    ⟨h.2.2, h.2.1, h.1⟩

/-- C10 witness: patch on `1.2.3-beta.4` through the theorem, and the same
call evaluated concretely to `1.2.4`. -/
theorem c10_witness :
    incrementVersion (str "1" ++ '.' :: (str "2" ++ '.' :: (str "3" ++ '-' :: str "beta.4")))
        (str "patch")
      = natToStr (strToNat (str "1")) ++ str "." ++ natToStr (strToNat (str "2")) ++ str "."
        ++ natToStr (strToNat (str "3") + 1)
    ∧ incrementVersion (str "1.2.3-beta.4") (str "patch") = str "1.2.4" :=
  ⟨(c10_prerelease_discarded (str "1") (str "2") (str "3") (str "beta.4")
      (by decide) (by decide) (by decide)).1, by decide⟩

/-! ## C6: `renameApiMethods` -/

theorem strStartsWith_nil {pat : Str} (h : pat ≠ []) : strStartsWith pat [] = false := by
  cases pat with
  | nil => exact absurd rfl h
  | cons a as => rfl

theorem noOccB_drop {pat s : Str} (h : noOccB pat s = true) (i : Nat) :
    strStartsWith pat (s.drop i) = false := by
  simp only [noOccB, List.all_eq_true, List.mem_range] at h
  by_cases hi : i ≤ s.length
  · have hh := h i (by omega)
    simpa using hh
  · have hdrop : s.drop i = [] := List.drop_eq_nil_of_le (by omega)
    have hh := h s.length (by omega)
    rw [List.drop_length] at hh
    rw [hdrop]
    simpa using hh

theorem find_reverse_range {f : Nat → Bool} {n j : Nat} (hj : j < n) (hvalid : f j = true)
    (habove : ∀ k, j < k → f k = false) : (List.range n).reverse.find? f = some j := by
  induction n with
  | zero => omega
  | succ n ih =>
    have hrev : (List.range (n + 1)).reverse = n :: (List.range n).reverse := by
      rw [List.range_succ n]
      simp
    rw [hrev]
    by_cases hn : j = n
    · subst hn
      exact List.find?_cons_of_pos _ hvalid
    · have hlt : j < n := by omega
      rw [List.find?_cons_of_neg _ (by simp [habove n (by omega)])]
      exact ih hlt

theorem ctrlStr_length : ctrlStr.length = 10 := rfl

theorem validK_at_true {w : Str} {u : Char} {m : Str} (hw : w ≠ [])
    (hu : u.isUpper = true) (hm : m ≠ []) :
    validK (w ++ ctrlStr ++ u :: m) w.length = true := by
  have h1 : decide (1 ≤ w.length) = true := by
    cases w with
    | nil => exact absurd rfl hw
    | cons a as => simp
  have hassoc : w ++ ctrlStr ++ u :: m = w ++ (ctrlStr ++ u :: m) := by simp
  have hdrop : (w ++ ctrlStr ++ u :: m).drop w.length = ctrlStr ++ u :: m := by
    rw [hassoc]
    exact List.drop_left w _
  have hx : (w ++ ctrlStr).length = w.length + 10 := by
    rw [List.length_append, ctrlStr_length]
  have hdrop10 : (w ++ ctrlStr ++ u :: m).drop (w.length + 10) = u :: m := by
    rw [← hx, List.drop_left]
  rw [validK, hdrop, hdrop10]
  cases m with
  | nil => exact absurd rfl hm
  | cons m0 mr => simp [h1, strStartsWith_append_self, hu]

theorem validK_above_false {w : Str} {u : Char} {m : Str}
    (hno : noOccB ctrlStr (u :: m) = true) :
    ∀ k, w.length < k → validK (w ++ ctrlStr ++ u :: m) k = false := by
  intro k hk
  have hstart : strStartsWith ctrlStr ((w ++ ctrlStr ++ u :: m).drop k) = false := by
    have hassoc : w ++ ctrlStr ++ u :: m = w ++ (ctrlStr ++ u :: m) := by simp
    obtain ⟨j, rfl⟩ : ∃ j, k = w.length + j := ⟨k - w.length, by omega⟩
    have hdrop : (w ++ ctrlStr ++ u :: m).drop (w.length + j)
        = (ctrlStr ++ u :: m).drop j := by
      rw [hassoc, List.drop_append j]
    rw [hdrop]
    have hj : 1 ≤ j := by omega
    by_cases hj10 : j < 10
    · interval_cases j <;> rfl
    · have hjsplit : j = ctrlStr.length + (j - 10) := by
        rw [ctrlStr_length]
        omega
      rw [hjsplit, List.drop_append (j - 10)]
      exact noOccB_drop hno _
  rw [validK, hstart]
  simp

theorem renameScan_nil : ∀ n, renameScan n [] = [] := by
  intro n
  cases n <;> rfl

theorem tryRenameAt_full {w : Str} {u : Char} {m : Str} (hw : w ≠ [])
    (hwword : ∀ c ∈ w, isWordChar c = true) (hu : u.isUpper = true) (hm : m ≠ [])
    (hmword : ∀ c ∈ m, isWordChar c = true) (hno : noOccB ctrlStr (u :: m) = true) :
    tryRenameAt (w ++ ctrlStr ++ u :: m) = some (u.toLower :: m, []) := by
  have hword : ∀ c ∈ w ++ ctrlStr ++ u :: m, isWordChar c = true := by
    intro c hc
    simp only [List.mem_append, List.mem_cons] at hc
    have hctrl : ∀ x ∈ ctrlStr, isWordChar x = true := by decide
    rcases hc with (hc | hc) | hc | hc
    · exact hwword c hc
    · exact hctrl c hc
    · subst hc
      simp [isWordChar, Char.isAlpha, hu]
    · exact hmword c hc
  have htake : (w ++ ctrlStr ++ u :: m).takeWhile isWordChar = w ++ ctrlStr ++ u :: m :=
    takeWhile_all_eq hword
  have hlen : w.length < (w ++ ctrlStr ++ u :: m).length := by
    simp only [List.length_append, ctrlStr_length, List.length_cons]
    omega
  have hfind : lastValidK (w ++ ctrlStr ++ u :: m) = some w.length := by
    rw [lastValidK]
    exact find_reverse_range hlen (validK_at_true hw hu hm) (validK_above_false hno)
  have hx : (w ++ ctrlStr).length = w.length + 10 := by
    rw [List.length_append, ctrlStr_length]
  have hdrop10 : (w ++ ctrlStr ++ u :: m).drop (w.length + 10) = u :: m := by
    rw [← hx, List.drop_left]
  rw [tryRenameAt]
  simp only [htake, hfind, hdrop10, List.drop_length]

theorem renameScan_id : ∀ (n : Nat) (s : Str), s.length ≤ n → noRenamePatternB s = true →
    renameScan n s = s := by
  intro n
  induction n with
  | zero =>
    intro s hlen _
    cases s with
    | nil => rfl
    | cons c rest => simp at hlen
  | succ n ih =>
    intro s hlen hclean
    cases s with
    | nil => rfl
    | cons c rest =>
      simp only [noRenamePatternB, List.all_eq_true, List.mem_range] at hclean
      have h0 : tryRenameAt (c :: rest) = none := by
        have hh := hclean 0 (by simp)
        simpa [Option.isNone_iff_eq_none] using hh
      have hrest : noRenamePatternB rest = true := by
        simp only [noRenamePatternB, List.all_eq_true, List.mem_range]
        intro i hi
        have hh := hclean (i + 1) (by simp; omega)
        simpa using hh
      have hlen2 : rest.length ≤ n := by
        simp only [List.length_cons] at hlen
        omega
      simp only [renameScan, h0]
      rw [ih rest hlen2 hrest]

theorem renameScan_match {s rep : Str} (h : tryRenameAt s = some (rep, [])) :
    renameScan s.length s = rep := by
  cases s with
  | nil =>
    rw [tryRenameAt] at h
    simp [lastValidK] at h
  | cons c rest =>
    have hl : (c :: rest).length = rest.length + 1 := rfl
    rw [hl]
    simp only [renameScan, h]
    rw [renameScan_nil]
    simp

/-- C6 counterexample: the identifier `userControllerA` is of the claimed
form `<prefix>Controller<Method>` with `<Method>` the single uppercase
letter `A`, yet the rename leaves it unchanged (the regex requires at
least one word character after the uppercase letter), so it is not
rewritten to `a` as the claim demands. -/
theorem c6_counterexample :
    renameApiMethods (str "userControllerA") = str "userControllerA"
    ∧ renameApiMethods (str "userControllerA") ≠ str "a" := by decide

/-- C6 (amended): every identifier `<prefix>Controller<Method>` in which
the prefix is a nonempty word-character run and the method is an uppercase
letter followed by at least one more word character (and contains no
further `Controller`) is rewritten to the method with its first letter
lowercased; and a string containing no match of the pattern anywhere is
left unchanged. -/
theorem c6_amended_rename :
    (∀ (w : Str) (u : Char) (m : Str), w ≠ [] → (∀ c ∈ w, isWordChar c = true) →
      u.isUpper = true → m ≠ [] → (∀ c ∈ m, isWordChar c = true) →
      noOccB ctrlStr (u :: m) = true →
      renameApiMethods (w ++ ctrlStr ++ u :: m) = u.toLower :: m)
    ∧ (∀ s : Str, noRenamePatternB s = true → renameApiMethods s = s) := by
  constructor
  · intro w u m hw hwword hu hm hmword hno
    have hmatch := tryRenameAt_full hw hwword hu hm hmword hno
    rw [renameApiMethods]
    exact renameScan_match hmatch
  · intro s hno
    exact renameScan_id s.length s (by omega) hno

/-- C6 witness: the identifier `userControllerFindAll` is renamed to
`findAll`, and a content without the pattern is untouched. -/
theorem c6_witness :
    renameApiMethods (str "user" ++ ctrlStr ++ 'F' :: str "indAll") = 'F'.toLower :: str "indAll"
    ∧ renameApiMethods (str "export class User") = str "export class User" :=
  ⟨c6_amended_rename.1 (str "user") 'F' (str "indAll") (by decide) (by decide) (by decide)
      (by decide) (by decide) (by decide),
    c6_amended_rename.2 (str "export class User") (by decide)⟩

/-! ## C3: `fixApiImports` — match facts -/

theorem impPat_length : impPat.length = 8 := rfl

theorem matchImport_none_of_not_start {s : Str} (h : strStartsWith impPat s = false) :
    matchImport s = none := by
  rw [matchImport, h]
  rfl

theorem strStartsWith_impPat_cons_ne {c : Char} (z : Str) (h : c ≠ 'f') :
    strStartsWith impPat (c :: z) = false := by
  have hi : impPat = 'f' :: (str "rom " ++ [qc, '.', '/']) := rfl
  rw [hi, strStartsWith]
  simp [beq_eq_false_iff_ne, Ne.symm h]

theorem matchImport_cons_ne {c : Char} (z : Str) (h : c ≠ 'f') :
    matchImport (c :: z) = none :=
  matchImport_none_of_not_start (strStartsWith_impPat_cons_ne z h)

theorem matchImport_some_decomp {s p t : Str} (h : matchImport s = some (p, t)) :
    s = impPat ++ (p ++ qc :: t) ∧ p ≠ [] ∧ ∀ c ∈ p, c ≠ qc := by
  rw [matchImport] at h
  by_cases hs : strStartsWith impPat s
  case neg => simp [hs] at h
  simp only [hs, if_true] at h
  by_cases hp : (s.drop 8).takeWhile (fun c => c != qc) = []
  case pos => simp [hp] at h
  simp only [hp, if_false] at h
  cases hdw : (s.drop 8).drop ((s.drop 8).takeWhile (fun c => c != qc)).length with
  | nil => rw [hdw] at h; simp at h
  | cons c t0 =>
    rw [hdw] at h
    by_cases hc : c = qc
    case neg => simp [hc] at h
    subst hc
    simp at h
    obtain ⟨hP, hT⟩ := h
    subst hP
    subst hT
    refine ⟨?_, hp, ?_⟩
    · have h1 : s = impPat ++ s.drop 8 := by
        have h0 := eq_append_drop_of_strStartsWith hs
        rwa [impPat_length] at h0
      have h2 : s.drop 8 = (s.drop 8).takeWhile (fun c => c != qc) ++ qc :: t0 := by
        conv_lhs => rw [← List.takeWhile_append_dropWhile (fun c => c != qc) (s.drop 8)]
        rw [← drop_takeWhile_length (fun c => c != qc) (s.drop 8), hdw]
      conv_lhs => rw [h1, h2]
    · intro x hx
      have hfx := List.mem_takeWhile_imp hx
      simpa [bne_iff_ne] using hfx

theorem matchImport_mk {p : Str} (t : Str) (hne : p ≠ []) (hq : ∀ c ∈ p, c ≠ qc) :
    matchImport (impPat ++ (p ++ qc :: t)) = some (p, t) := by
  have hstart := strStartsWith_append_self impPat (p ++ qc :: t)
  have hdrop : (impPat ++ (p ++ qc :: t)).drop 8 = p ++ qc :: t := by
    have h0 := List.drop_left impPat (p ++ qc :: t)
    rwa [impPat_length] at h0
  have htake : (p ++ qc :: t).takeWhile (fun c => c != qc) = p :=
    takeWhile_append_stop t (fun c hc => by simpa [bne_iff_ne] using hq c hc)
      (by simp)
  have hdrop2 : (p ++ qc :: t).drop p.length = qc :: t := List.drop_left p (qc :: t)
  rw [matchImport, hstart, if_pos rfl]
  simp only [hdrop, htake, hdrop2, if_neg hne]
  simp

theorem matchImport_some_lt {s p t : Str} (h : matchImport s = some (p, t)) :
    t.length < s.length := by
  have hd := (matchImport_some_decomp h).1
  rw [hd]
  simp [impPat_length, List.length_append]
  omega

theorem matchImport_head {s p t : Str} (h : matchImport s = some (p, t)) :
    s.head? = some 'f' := by
  rw [(matchImport_some_decomp h).1]
  rfl

theorem rewritePath_headf (p : Str) : (rewritePath p).head? = some 'f' := by
  rw [rewritePath]
  split <;> rfl

theorem rewritePath_ne_nil (p : Str) : rewritePath p ≠ [] := by
  intro h
  have := rewritePath_headf p
  rw [h] at this
  simp at this

/-! ## C3: scanner unfolding and fuel irrelevance -/

theorem scanRelImports_nil : ∀ n, scanRelImports n [] = [] := by
  intro n
  cases n <;> rfl

theorem scanRelImports_fuel : ∀ (n m : Nat) (s : Str), s.length ≤ n → s.length ≤ m →
    scanRelImports n s = scanRelImports m s := by
  intro n
  induction n with
  | zero =>
    intro m s hn hm
    have : s = [] := by
      cases s with
      | nil => rfl
      | cons c r => simp at hn
    rw [this, scanRelImports_nil, scanRelImports_nil]
  | succ n ih =>
    intro m s hn hm
    cases s with
    | nil => rw [scanRelImports_nil, scanRelImports_nil]
    | cons c rest =>
      cases m with
      | zero => simp at hm
      | succ m' =>
        simp only [scanRelImports]
        cases hmi : matchImport (c :: rest) with
        | none =>
          have hr : rest.length ≤ n := by simp at hn; omega
          have hr2 : rest.length ≤ m' := by simp at hm; omega
          simp only [ih m' rest hr hr2]
        | some pt =>
          have hlt := matchImport_some_lt hmi
          have h1 : pt.2.length ≤ n := by simp at hn hlt; omega
          have h2 : pt.2.length ≤ m' := by simp at hm hlt; omega
          simp only [ih m' pt.2 h1 h2]

theorem rewriteRelImports_nil : rewriteRelImports [] = [] := rfl

theorem rewriteRelImports_some {s p t : Str} (h : matchImport s = some (p, t)) :
    rewriteRelImports s = rewritePath p ++ rewriteRelImports t := by
  cases s with
  | nil =>
    rw [show matchImport ([] : Str) = none from rfl] at h
    exact Option.noConfusion h
  | cons c rest =>
    rw [rewriteRelImports]
    have hl : (c :: rest).length = rest.length + 1 := rfl
    rw [hl]
    have hlt : t.length < rest.length + 1 := by
      have h9 := matchImport_some_lt h
      simpa using h9
    simp only [scanRelImports, h]
    rw [scanRelImports_fuel rest.length t.length t (by omega) (by omega)]
    rfl

theorem rewriteRelImports_none {c : Char} {rest : Str} (h : matchImport (c :: rest) = none) :
    rewriteRelImports (c :: rest) = c :: rewriteRelImports rest := by
  rw [rewriteRelImports]
  have hl : (c :: rest).length = rest.length + 1 := rfl
  rw [hl]
  simp only [scanRelImports, h]
  rfl

/-! ## C3: global scan lemmas -/

theorem scan_append_of_noMatch : ∀ (u v : Str),
    (∀ i, i < u.length → matchImport ((u ++ v).drop i) = none) →
    rewriteRelImports (u ++ v) = u ++ rewriteRelImports v := by
  intro u
  induction u with
  | nil => intro v _; rfl
  | cons c u' ih =>
    intro v h
    have h0 : matchImport (c :: (u' ++ v)) = none := by
      have hh := h 0 (by simp)
      simpa using hh
    have hrest : rewriteRelImports (u' ++ v) = u' ++ rewriteRelImports v := by
      refine ih v fun i hi => ?_
      have hh := h (i + 1) (by simp; omega)
      simpa using hh
    calc rewriteRelImports ((c :: u') ++ v)
        = c :: rewriteRelImports (u' ++ v) := rewriteRelImports_none h0
      _ = c :: (u' ++ rewriteRelImports v) := by rw [hrest]
      _ = (c :: u') ++ rewriteRelImports v := rfl

theorem matchImport_none_of_noQuote {s : Str} (h : ∀ c ∈ s, c ≠ qc) :
    matchImport s = none := by
  cases hm : matchImport s with
  | none => rfl
  | some pt =>
    obtain ⟨hd, _, _⟩ := matchImport_some_decomp (p := pt.1) (t := pt.2)
      (by rw [hm])
    exfalso
    exact h qc (by rw [hd]; simp) rfl

theorem scan_id_of_noQuote : ∀ (n : Nat) (s : Str), s.length ≤ n → (∀ c ∈ s, c ≠ qc) →
    rewriteRelImports s = s := by
  intro n
  induction n with
  | zero =>
    intro s hn _
    cases s with
    | nil => rfl
    | cons c r => simp at hn
  | succ n ih =>
    intro s hn hq
    cases s with
    | nil => rfl
    | cons c rest =>
      have h0 : matchImport (c :: rest) = none :=
        matchImport_none_of_noQuote hq
      rw [rewriteRelImports_none h0,
        ih rest (by simp at hn; omega) fun x hx => hq x (by simp [hx])]

theorem scan_prefix_f_free : ∀ (w y r : Str), (∀ c ∈ w, c ≠ 'f') →
    rewriteRelImports y = w ++ r →
    ∃ y', y = w ++ y' ∧ rewriteRelImports y' = r := by
  intro w
  induction w with
  | nil => intro y r _ h; exact ⟨y, rfl, h⟩
  | cons d w' ih =>
    intro y r hf h
    cases y with
    | nil =>
      rw [rewriteRelImports_nil] at h
      exact absurd h.symm (by simp)
    | cons c rest =>
      cases hm : matchImport (c :: rest) with
      | some pt =>
        exfalso
        have hscan := rewriteRelImports_some (p := pt.1) (t := pt.2) (by rw [hm])
        rw [hscan] at h
        have hh : ((rewritePath pt.1) ++ rewriteRelImports pt.2).head? = some d := by
          rw [h]
          rfl
        rw [List.head?_append_of_ne_nil _ (rewritePath_ne_nil pt.1)] at hh
        rw [rewritePath_headf pt.1] at hh
        have hdf : d = 'f' := by
          injection hh with hh2
          exact hh2.symm
        exact hf d (by simp) hdf
      | none =>
        rw [rewriteRelImports_none hm] at h
        injection h with hcd hrest
        obtain ⟨y', hy, hr⟩ := ih rest r (fun x hx => hf x (by simp [hx])) hrest
        subst hcd
        exact ⟨y', by simp [hy], hr⟩

theorem dropWhile_head_false {f : Char → Bool} : ∀ (y : Str) {a : Char} {z : Str},
    y.dropWhile f = a :: z → f a = false := by
  intro y
  induction y with
  | nil => intro a z h; simp [List.dropWhile] at h
  | cons b t ih =>
    intro a z h
    rw [List.dropWhile_cons] at h
    by_cases hb : f b
    · rw [if_pos hb] at h
      exact ih h
    · rw [if_neg hb] at h
      injection h with h1 _
      rw [← h1]
      simpa using hb

theorem matchImport_impPat_cases (y : Str) (h : matchImport (impPat ++ y) = none) :
    y = [] ∨ y.head? = some qc ∨ ∀ ch ∈ y, ch ≠ qc := by
  rw [matchImport, strStartsWith_append_self impPat y, if_pos rfl] at h
  have hdrop : (impPat ++ y).drop 8 = y := by
    have h0 := List.drop_left impPat y
    rwa [impPat_length] at h0
  simp only [hdrop] at h
  by_cases hp : y.takeWhile (fun c => c != qc) = []
  · cases y with
    | nil => exact Or.inl rfl
    | cons a z =>
      rw [List.takeWhile_cons] at hp
      by_cases ha : (a != qc) = true
      · simp [ha] at hp
      · refine Or.inr (Or.inl ?_)
        have ha2 : a = qc := by
          simpa [bne_iff_ne] using ha
        simp [ha2]
  · simp only [hp, if_false] at h
    rw [drop_takeWhile_length (fun c => c != qc) y] at h
    cases hdd : y.dropWhile (fun c => c != qc) with
    | nil =>
      refine Or.inr (Or.inr fun ch hch => ?_)
      have hy : y = y.takeWhile (fun c => c != qc) := by
        conv_lhs => rw [← List.takeWhile_append_dropWhile (fun c => c != qc) y]
        rw [hdd]
        simp
      rw [hy] at hch
      have hfch := List.mem_takeWhile_imp hch
      simpa [bne_iff_ne] using hfch
    | cons a z =>
      rw [hdd] at h
      have ha : a = qc := by
        have h9 := dropWhile_head_false y hdd
        simpa [bne_iff_ne] using h9
      rw [ha] at h
      simp at h

theorem matchImport_none_stable {c : Char} {rest : Str}
    (h : matchImport (c :: rest) = none) :
    matchImport (c :: rewriteRelImports rest) = none := by
  cases hm : matchImport (c :: rewriteRelImports rest) with
  | none => rfl
  | some pt =>
    exfalso
    obtain ⟨hd, hne, hq⟩ := matchImport_some_decomp (p := pt.1) (t := pt.2) (by rw [hm])
    have himp : impPat = 'f' :: (str "rom " ++ [qc, '.', '/']) := rfl
    rw [himp] at hd
    injection hd with hcf hscan
    obtain ⟨y', hy, hr⟩ := scan_prefix_f_free (str "rom " ++ [qc, '.', '/']) rest
      (pt.1 ++ qc :: pt.2) (by decide) hscan
    subst hcf
    rw [hy] at h
    have hconv : impPat ++ y' = 'f' :: (str "rom " ++ [qc, '.', '/'] ++ y') := by
      rw [himp]
      simp
    have hcases := matchImport_impPat_cases y' (by rw [hconv]; exact h)
    rcases hcases with hc1 | hc2 | hc3
    · rw [hc1, rewriteRelImports_nil] at hr
      exact absurd hr.symm (by simp)
    · cases y' with
      | nil => simp at hc2
      | cons a z =>
        have ha : a = qc := by
          simpa using hc2
        subst ha
        rw [rewriteRelImports_none (matchImport_cons_ne z (by decide))] at hr
        cases hp1 : pt.1 with
        | nil => exact hne hp1
        | cons b p' =>
          rw [hp1] at hr
          injection hr with hr1 _
          exact hq b (by rw [hp1]; simp) hr1.symm
    · rw [scan_id_of_noQuote y'.length y' (by omega) hc3] at hr
      exact hc3 qc (by rw [hr]; simp) rfl

theorem strStartsWith_cons_true {x y : Char} {xs ys : Str}
    (h : strStartsWith (x :: xs) (y :: ys) = true) : x = y ∧ strStartsWith xs ys = true := by
  simpa [strStartsWith, Bool.and_eq_true, beq_iff_eq] using h

theorem inPath_noMatch {p2 : Str} (v : Str) (hne : p2 ≠ []) (hq : ∀ c ∈ p2, c ≠ qc)
    (hnf : p2 ≠ str "from ") : matchImport (p2 ++ qc :: v) = none := by
  apply matchImport_none_of_not_start
  cases hsw : strStartsWith impPat (p2 ++ qc :: v) with
  | false => rfl
  | true =>
    exfalso
    have himp : impPat = 'f' :: 'r' :: 'o' :: 'm' :: ' ' :: qc :: '.' :: '/' :: [] := rfl
    rw [himp] at hsw
    rcases p2 with _ | ⟨a, _ | ⟨b, _ | ⟨c2, _ | ⟨d, _ | ⟨e, _ | ⟨x, rest2⟩⟩⟩⟩⟩⟩
    · exact hne rfl
    · obtain ⟨_, hsw⟩ := strStartsWith_cons_true hsw
      obtain ⟨h2, _⟩ := strStartsWith_cons_true hsw
      exact absurd h2.symm (by decide)
    · obtain ⟨_, hsw⟩ := strStartsWith_cons_true hsw
      obtain ⟨_, hsw⟩ := strStartsWith_cons_true hsw
      obtain ⟨h3, _⟩ := strStartsWith_cons_true hsw
      exact absurd h3.symm (by decide)
    · obtain ⟨_, hsw⟩ := strStartsWith_cons_true hsw
      obtain ⟨_, hsw⟩ := strStartsWith_cons_true hsw
      obtain ⟨_, hsw⟩ := strStartsWith_cons_true hsw
      obtain ⟨h4, _⟩ := strStartsWith_cons_true hsw
      exact absurd h4.symm (by decide)
    · obtain ⟨_, hsw⟩ := strStartsWith_cons_true hsw
      obtain ⟨_, hsw⟩ := strStartsWith_cons_true hsw
      obtain ⟨_, hsw⟩ := strStartsWith_cons_true hsw
      obtain ⟨_, hsw⟩ := strStartsWith_cons_true hsw
      obtain ⟨h5, _⟩ := strStartsWith_cons_true hsw
      exact absurd h5.symm (by decide)
    · obtain ⟨h1, hsw⟩ := strStartsWith_cons_true hsw
      obtain ⟨h2, hsw⟩ := strStartsWith_cons_true hsw
      obtain ⟨h3, hsw⟩ := strStartsWith_cons_true hsw
      obtain ⟨h4, hsw⟩ := strStartsWith_cons_true hsw
      obtain ⟨h5, _⟩ := strStartsWith_cons_true hsw
      apply hnf
      rw [← h1, ← h2, ← h3, ← h4, ← h5]
      rfl
    · obtain ⟨_, hsw⟩ := strStartsWith_cons_true hsw
      obtain ⟨_, hsw⟩ := strStartsWith_cons_true hsw
      obtain ⟨_, hsw⟩ := strStartsWith_cons_true hsw
      obtain ⟨_, hsw⟩ := strStartsWith_cons_true hsw
      obtain ⟨_, hsw⟩ := strStartsWith_cons_true hsw
      obtain ⟨h6, _⟩ := strStartsWith_cons_true hsw
      exact hq x (by simp) h6.symm

theorem rewPre_length : rewPre.length = 15 := rfl

theorem noMatch_rewritten {p : Str} (v : Str) (hne : p ≠ []) (hq : ∀ c ∈ p, c ≠ qc)
    (hends : strEndsWith (str "from ") p = false) :
    ∀ i, i < (rewPre ++ p ++ [qc]).length →
      matchImport (((rewPre ++ p ++ [qc]) ++ v).drop i) = none := by
  intro i hi
  have hsplit : (rewPre ++ p ++ [qc]) ++ v = rewPre ++ (p ++ qc :: v) := by simp
  rw [hsplit]
  have hlen : (rewPre ++ p ++ [qc]).length = 16 + p.length := by
    simp [List.length_append, rewPre_length]
    omega
  by_cases h15 : i < 15
  · interval_cases i <;> rfl
  · by_cases hip : i < 15 + p.length
    · obtain ⟨j, rfl⟩ : ∃ j, i = 15 + j := ⟨i - 15, by omega⟩
      have hdrop : (rewPre ++ (p ++ qc :: v)).drop (15 + j) = (p ++ qc :: v).drop j := by
        rw [← rewPre_length, List.drop_append j]
      have hj : j < p.length := by omega
      have hdrop2 : (p ++ qc :: v).drop j = p.drop j ++ qc :: v :=
        List.drop_append_of_le_length (by omega)
      rw [hdrop, hdrop2]
      apply inPath_noMatch
      · intro h0
        have h1 := congrArg List.length h0
        simp at h1
        omega
      · intro c hc
        exact hq c (List.mem_of_mem_drop hc)
      · intro heq
        apply absurd hends
        simp only [Bool.not_eq_false]
        rw [strEndsWith]
        have hrev : p.reverse = (str "from ").reverse ++ (p.take j).reverse := by
          rw [← List.reverse_append, ← heq, List.take_append_drop]
        rw [hrev]
        exact strStartsWith_append_self _ _
    · have hieq : i = 15 + p.length := by
        rw [hlen] at hi
        omega
      subst hieq
      have hdrop : (rewPre ++ (p ++ qc :: v)).drop (15 + p.length) = qc :: v := by
        rw [← rewPre_length, List.drop_append p.length, List.drop_left p (qc :: v)]
      rw [hdrop]
      exact matchImport_cons_ne v (by decide)

theorem cleanB_at {s : Str} (h : cleanB s = true) {i : Nat} (hi : i < s.length) {p t : Str}
    (hm : matchImport (s.drop i) = some (p, t)) (htr : isTriggered p = true) :
    strEndsWith (str "from ") p = false := by
  simp only [cleanB, List.all_eq_true, List.mem_range] at h
  have hh := h i hi
  rw [hm] at hh
  simp only [Bool.not_eq_true'] at hh
  rw [htr] at hh
  simpa using hh

theorem cleanB_drop {s : Str} (h : cleanB s = true) (k : Nat) : cleanB (s.drop k) = true := by
  simp only [cleanB, List.all_eq_true, List.mem_range] at h ⊢
  intro i hi
  have hlen : k + i < s.length := by
    rw [List.length_drop] at hi
    omega
  have hh := h (k + i) hlen
  rw [List.drop_drop]
  exact hh

theorem scan_idem : ∀ (n : Nat) (s : Str), s.length ≤ n → cleanB s = true →
    rewriteRelImports (rewriteRelImports s) = rewriteRelImports s := by
  intro n
  induction n with
  | zero =>
    intro s hn _
    have hnil : s = [] := by
      cases s with
      | nil => rfl
      | cons c r => simp at hn
    rw [hnil]
    rfl
  | succ n ih =>
    intro s hn hclean
    cases hm : matchImport s with
    | none =>
      cases s with
      | nil => rfl
      | cons c rest =>
        rw [rewriteRelImports_none hm]
        rw [rewriteRelImports_none (matchImport_none_stable hm)]
        have hcr : cleanB rest = true := by
          have hh := cleanB_drop hclean 1
          simpa using hh
        rw [ih rest (by simp at hn; omega) hcr]
    | some pt =>
      obtain ⟨hd, hne, hq⟩ := matchImport_some_decomp (p := pt.1) (t := pt.2) (by rw [hm])
      have hscan := rewriteRelImports_some (p := pt.1) (t := pt.2) (by rw [hm])
      have htdrop : s.drop (8 + (pt.1.length + 1)) = pt.2 := by
        rw [hd]
        rw [show (8 : Nat) + (pt.1.length + 1) = impPat.length + (pt.1.length + 1) from by
          rw [impPat_length]]
        rw [List.drop_append (pt.1.length + 1)]
        rw [List.drop_append 1]
        rfl
      have hct : cleanB pt.2 = true := by
        rw [← htdrop]
        exact cleanB_drop hclean _
      have hlt : pt.2.length < s.length := matchImport_some_lt (p := pt.1) (t := pt.2)
        (by rw [hm])
      have hscanscan := ih pt.2 (by omega) hct
      rw [hscan]
      by_cases htr : isTriggered pt.1
      · have hpos : 0 < s.length := by
          rw [hd]
          simp only [List.length_append, impPat_length]
          omega
        have hends : strEndsWith (str "from ") pt.1 = false :=
          @cleanB_at s hclean 0 hpos pt.1 pt.2 (by simpa using hm) htr
        have hrw : rewritePath pt.1 = rewPre ++ pt.1 ++ [qc] := by
          rw [rewritePath, if_pos htr]
        rw [hrw]
        rw [scan_append_of_noMatch (rewPre ++ pt.1 ++ [qc]) (rewriteRelImports pt.2)
          (noMatch_rewritten (rewriteRelImports pt.2) hne hq hends)]
        rw [hscanscan]
      · have hrw : rewritePath pt.1 = impPat ++ pt.1 ++ [qc] := by
          rw [rewritePath, if_neg htr]
        rw [hrw]
        have hassoc : (impPat ++ pt.1 ++ [qc]) ++ rewriteRelImports pt.2
            = impPat ++ (pt.1 ++ qc :: rewriteRelImports pt.2) := by
          simp
        rw [hassoc]
        rw [rewriteRelImports_some (matchImport_mk (rewriteRelImports pt.2) hne hq)]
        rw [hscanscan, hrw]
        simp

theorem noOccB_parts {pat : Str} {c : Char} {rest : Str} (h : noOccB pat (c :: rest) = true) :
    strStartsWith pat (c :: rest) = false ∧ noOccB pat rest = true := by
  simp only [noOccB, List.all_eq_true, List.mem_range] at h ⊢
  constructor
  · have hh := h 0 (by omega)
    simpa using hh
  · intro i hi
    have hh := h (i + 1) (by simp only [List.length_cons]; omega)
    simpa using hh

theorem replaceAllN_id (pat rep : Str) : ∀ (n : Nat) (s : Str), s.length ≤ n →
    noOccB pat s = true → replaceAllN pat rep n s = s := by
  intro n
  induction n with
  | zero =>
    intro s hn _
    cases s with
    | nil => rfl
    | cons c rest => simp at hn
  | succ n ih =>
    intro s hn hno
    cases s with
    | nil => rfl
    | cons c rest =>
      obtain ⟨h0, hrest⟩ := noOccB_parts hno
      simp only [replaceAllN, h0, Bool.false_eq_true, if_false]
      rw [ih rest (by simp at hn; omega) hrest]

theorem replaceAllStr_id {pat rep s : Str} (h : noOccB pat s = true) :
    replaceAllStr pat rep s = s :=
  replaceAllN_id pat rep s.length s (by omega) h

/-- C3 counterexample: on the content `from './contract from './types'`
one application of `fixApiImports` rewrites only the first (outer) match,
leaving the embedded `from './types'` reference, which a second
application then rewrites — so applying the import-path fix twice does not
equal applying it once on every input. -/
theorem c3_counterexample :
    fixApiImports (fixApiImports (impPat ++ str "contract from " ++ [qc, '.', '/']
        ++ str "types" ++ [qc]))
      ≠ fixApiImports (impPat ++ str "contract from " ++ [qc, '.', '/']
        ++ str "types" ++ [qc]) := by
  decide

/-- C3 (amended): the import-path fix is idempotent on every content whose
quoted import paths do not themselves embed a second `from '` reference:
whenever after the two literal replacements no match carries a triggered
path ending in `from `, and one full application leaves no literal
`from './data-contracts'` or `from './httpClient'` occurrence, a second
application changes nothing. In particular imports already rewritten to
`../types/...` or `./HttpClient` are not rewritten again. -/
theorem c3_amended_idempotent (x : Str)
    (h1 : cleanB (replaceAllStr pat2 rep2 (replaceAllStr pat1 rep1 x)) = true)
    (h2 : noOccB pat1 (fixApiImports x) = true)
    (h3 : noOccB pat2 (fixApiImports x) = true) :
    fixApiImports (fixApiImports x) = fixApiImports x := by
  have hfix : fixApiImports x
      = rewriteRelImports (replaceAllStr pat2 rep2 (replaceAllStr pat1 rep1 x)) := rfl
  conv_lhs => rw [fixApiImports]
  rw [replaceAllStr_id h2, replaceAllStr_id h3, hfix]
  exact scan_idem (replaceAllStr pat2 rep2 (replaceAllStr pat1 rep1 x)).length _
    (by omega) h1

/-- C3 witness: a realistic generated file content, with one
data-contracts import and one httpClient import, is a fixed point of the
second application. -/
theorem c3_witness :
    fixApiImports (fixApiImports (str "import X from " ++ [qc] ++ str "./data-contracts"
        ++ [qc] ++ str "; import H from " ++ [qc] ++ str "./httpClient" ++ [qc] ++ str ";"))
      = fixApiImports (str "import X from " ++ [qc] ++ str "./data-contracts"
        ++ [qc] ++ str "; import H from " ++ [qc] ++ str "./httpClient" ++ [qc] ++ str ";") :=
  c3_amended_idempotent
    (str "import X from " ++ [qc] ++ str "./data-contracts"
      ++ [qc] ++ str "; import H from " ++ [qc] ++ str "./httpClient" ++ [qc] ++ str ";")
    (by decide) (by decide) (by decide)
